import Mathlib

/-!
Verification of the HISet repository: an ordered, index-addressable set
(`HISet`, defined in `src/set.rs` with a near-duplicate in `src/lib.rs`) and an
ordered, index-addressable bag (`HIBag`, defined in `src/bag.rs`).  Both wrap a
single `Vec<T>` kept in ascending `Ord` order and drive every value-based
operation through `slice::binary_search`.

The embedding below is a direct translation of that code:

* `binarySearch` models `slice::binary_search` (via `binary_search_by`): the
  standard-library loop keeps `left`/`right` bounds, probes
  `mid = left + size / 2` where `size = right - left`, narrows on
  `Less`/`Greater`, returns `Ok(mid)` on `Equal` and `Err(left)` on exhaustion.
* `insertAt`/`removeAt` model `Vec::insert`/`Vec::remove` (splice at an index).
* Rust functions that can panic (`remove_index`, `get_index`, `get_index_mut`,
  the `Index`/`IndexMut` operators) are modelled with `Option`, `none` standing
  for the panic.
* `&mut self` methods are modelled by returning the new container state,
  paired with the Rust return value where there is one.
-/

/-- Result of `slice::binary_search`: `found i` models `Ok(i)` (an element
comparing equal sits at index `i`), `notFound i` models `Err(i)` (the sorted
insertion point is `i`). -/
inductive BSResult where
  | found (i : Nat)
  | notFound (i : Nat)
  deriving DecidableEq, Repr

/-- Whether a `BSResult` is the `Ok`/`found` case (models `Result::is_ok`). -/
def BSResult.isFound : BSResult → Bool
  | .found _ => true
  | .notFound _ => false

/-- The loop of `slice::binary_search_by` from the Rust standard library,
specialised to the comparator `|p| p.cmp(x)`: while `left < right`, probe
`mid = left + (right - left) / 2`; go right on `Less`, left on `Greater`,
return `Ok(mid)` on `Equal`; return `Err(left)` when the window is empty. -/
def binarySearchGo {α : Type} [LinearOrder α] (l : List α) (x : α)
    (left right : Nat) : BSResult :=
  if left < right then
    if l.getD (left + (right - left) / 2) x < x then
      binarySearchGo l x (left + (right - left) / 2 + 1) right
    else if x < l.getD (left + (right - left) / 2) x then
      binarySearchGo l x left (left + (right - left) / 2)
    else .found (left + (right - left) / 2)
  else .notFound left
termination_by right - left
decreasing_by
  · omega
  · omega

/-- `slice::binary_search(&self, x)`: search the whole slice. -/
def binarySearch {α : Type} [LinearOrder α] (l : List α) (x : α) : BSResult :=
  binarySearchGo l x 0 l.length

/-- `Vec::insert(index, element)`: splice `x` in at position `i`, shifting the
suffix right. -/
def insertAt {α : Type} (l : List α) (i : Nat) (x : α) : List α :=
  l.take i ++ x :: l.drop i

/-- `Vec::remove(index)`: drop the element at position `i`, shifting the
suffix left.  (The removed element itself is read off separately with `getD`.) -/
def removeAt {α : Type} (l : List α) (i : Nat) : List α :=
  l.take i ++ l.drop (i + 1)

/-- `HISet<T>` from `src/set.rs`: a set backed by a sorted `Vec<T>`
(`items` field), deriving structural `Hash`/`PartialEq`/`Eq`/`Clone`/
`PartialOrd`/`Ord`. -/
structure SetRs.HISet (α : Type) where
  items : List α
  deriving DecidableEq, Repr

/-- `HISet::new()` (`src/set.rs`): the empty set. -/
def SetRs.HISet.new {α : Type} : SetRs.HISet α :=
  ⟨[]⟩

/-- `HISet::insert` (`src/set.rs` lines 20–31): binary-search for the item;
on `Ok(_)` do nothing and return `true`, on `Err(i)` splice the item in at `i`
and return `false`.  The `Bool` return value is paired with the post-state. -/
def SetRs.HISet.insert {α : Type} [LinearOrder α] (s : SetRs.HISet α) (x : α) :
    Bool × SetRs.HISet α :=
  match binarySearch s.items x with
  | .found _ => (true, s)
  | .notFound i => (false, ⟨insertAt s.items i x⟩)

/-- `HISet::remove` (`src/set.rs` lines 34–42): binary-search for the item;
on `Ok(i)` remove position `i` and return it as `Some`, on `Err(_)` return
`None` leaving the set untouched. -/
def SetRs.HISet.remove {α : Type} [LinearOrder α] (s : SetRs.HISet α) (x : α) :
    Option α × SetRs.HISet α :=
  match binarySearch s.items x with
  | .found i => (some (s.items.getD i x), ⟨removeAt s.items i⟩)
  | .notFound _ => (none, s)

/-- `HISet::contains` (`src/set.rs`): `binary_search(..).is_ok()`. -/
def SetRs.HISet.contains {α : Type} [LinearOrder α] (s : SetRs.HISet α)
    (x : α) : Bool :=
  (binarySearch s.items x).isFound

/-- `HISet::len` (`src/set.rs`). -/
def SetRs.HISet.len {α : Type} (s : SetRs.HISet α) : Nat :=
  s.items.length

/-- `HISet::iter` (`src/set.rs`): the elements in storage order. -/
def SetRs.HISet.iter {α : Type} (s : SetRs.HISet α) : List α :=
  s.items

/-- `HISet::remove_index` (`src/set.rs` lines 61–65): asserts
`index < len` ("Index out of bounds") then `Vec::remove`.  `none` models the
assertion failure; otherwise the removed element is paired with the
post-state. -/
def SetRs.HISet.remove_index {α : Type} (s : SetRs.HISet α) (i : Nat) :
    Option (α × SetRs.HISet α) :=
  match s.items[i]? with
  | some v => some (v, ⟨removeAt s.items i⟩)
  | none => none

/-- `HISet::get_index` (`src/set.rs`): asserts `index < len` then returns
`&items[index]`; `none` models the assertion failure. -/
def SetRs.HISet.get_index {α : Type} (s : SetRs.HISet α) (i : Nat) :
    Option α :=
  s.items[i]?

/-- `HISet::get_index_mut` (`src/set.rs` lines 73–77): asserts `index < len`
then returns `&mut self.items[index]` — but the function's declared return
type is `&T`, so the mutable borrow coerces to a shared reference and the
caller receives read-only access.  Accordingly the model returns only the
element, with no way to produce an updated container. -/
def SetRs.HISet.get_index_mut {α : Type} (s : SetRs.HISet α) (i : Nat) :
    Option α :=
  s.items[i]?

/-- `Index<usize> for HISet` (`src/set.rs`): `&self.items[index]`, panicking
out of bounds (`none`). -/
def SetRs.HISet.index {α : Type} (s : SetRs.HISet α) (i : Nat) : Option α :=
  s.items[i]?

/-- `IndexMut<usize> for HISet` (`src/set.rs`): `&mut self.items[index]`,
panicking out of bounds.  This one really is a mutable borrow, so the model
pairs the element with the write-back function (storing `y` through the
reference replaces position `i`). -/
def SetRs.HISet.index_mut {α : Type} (s : SetRs.HISet α) (i : Nat) :
    Option (α × (α → SetRs.HISet α)) :=
  match s.items[i]? with
  | some v => some (v, fun y => ⟨s.items.set i y⟩)
  | none => none

/-- `HISet::clear` (`src/set.rs`): `self.items.clear()`. -/
def SetRs.HISet.clear {α : Type} (_ : SetRs.HISet α) : SetRs.HISet α :=
  ⟨[]⟩

/-- `FromIterator for HISet` (`src/set.rs` lines 108–122): start from
`HISet::new()` and `insert` each element in iteration order, discarding the
`bool` results. -/
def SetRs.HISet.fromIter {α : Type} [LinearOrder α] (l : List α) :
    SetRs.HISet α :=
  l.foldl (fun s t => (s.insert t).2) SetRs.HISet.new

/-- `HIBag<T>` from `src/bag.rs`: a bag backed by a sorted `Vec<T>`. -/
structure BagRs.HIBag (α : Type) where
  items : List α
  deriving DecidableEq, Repr

/-- `HIBag::new()` (`src/bag.rs`). -/
def BagRs.HIBag.new {α : Type} : BagRs.HIBag α :=
  ⟨[]⟩

/-- `HIBag::insert` (`src/bag.rs` lines 16–23): binary-search for the item and
splice it in at the reported index in both the `Ok(i)` and `Err(i)` branches;
no return value. -/
def BagRs.HIBag.insert {α : Type} [LinearOrder α] (b : BagRs.HIBag α) (x : α) :
    BagRs.HIBag α :=
  match binarySearch b.items x with
  | .found i => ⟨insertAt b.items i x⟩
  | .notFound i => ⟨insertAt b.items i x⟩

/-- `HIBag::remove` (`src/bag.rs` lines 26–34): like `HISet::remove`. -/
def BagRs.HIBag.remove {α : Type} [LinearOrder α] (b : BagRs.HIBag α) (x : α) :
    Option α × BagRs.HIBag α :=
  match binarySearch b.items x with
  | .found i => (some (b.items.getD i x), ⟨removeAt b.items i⟩)
  | .notFound _ => (none, b)

/-- `HIBag::contains` (`src/bag.rs`). -/
def BagRs.HIBag.contains {α : Type} [LinearOrder α] (b : BagRs.HIBag α)
    (x : α) : Bool :=
  (binarySearch b.items x).isFound

/-- `HIBag::len` (`src/bag.rs`). -/
def BagRs.HIBag.len {α : Type} (b : BagRs.HIBag α) : Nat :=
  b.items.length

/-- `HIBag::iter` (`src/bag.rs`). -/
def BagRs.HIBag.iter {α : Type} (b : BagRs.HIBag α) : List α :=
  b.items

/-- `HIBag::remove_index` (`src/bag.rs` lines 55–59): assert then
`Vec::remove`. -/
def BagRs.HIBag.remove_index {α : Type} (b : BagRs.HIBag α) (i : Nat) :
    Option (α × BagRs.HIBag α) :=
  match b.items[i]? with
  | some v => some (v, ⟨removeAt b.items i⟩)
  | none => none

/-- `HIBag::get_index` (`src/bag.rs` lines 62–66). -/
def BagRs.HIBag.get_index {α : Type} (b : BagRs.HIBag α) (i : Nat) :
    Option α :=
  b.items[i]?

/-- `Index<usize> for HIBag` (`src/bag.rs`). -/
def BagRs.HIBag.index {α : Type} (b : BagRs.HIBag α) (i : Nat) : Option α :=
  b.items[i]?

/-- `FromIterator for HIBag` (`src/bag.rs`). -/
def BagRs.HIBag.fromIter {α : Type} [LinearOrder α] (l : List α) :
    BagRs.HIBag α :=
  l.foldl (fun b t => b.insert t) BagRs.HIBag.new

/-- The duplicate `HISet<T>` at the crate root (`src/lib.rs` lines 13–77):
textually the same fields as the `src/set.rs` version, but deriving only
`Debug`/`Hash`/`PartialEq`/`Eq`/`Clone` and offering no `clear`,
`FromIterator` or `hi_set!`. -/
structure LibRs.HISet (α : Type) where
  items : List α
  deriving DecidableEq, Repr

/-- `HISet::new()` (`src/lib.rs`). -/
def LibRs.HISet.new {α : Type} : LibRs.HISet α :=
  ⟨[]⟩

/-- `HISet::insert` (`src/lib.rs` lines 19–30). -/
def LibRs.HISet.insert {α : Type} [LinearOrder α] (s : LibRs.HISet α) (x : α) :
    Bool × LibRs.HISet α :=
  match binarySearch s.items x with
  | .found _ => (true, s)
  | .notFound i => (false, ⟨insertAt s.items i x⟩)

/-- `HISet::remove` (`src/lib.rs` lines 33–41). -/
def LibRs.HISet.remove {α : Type} [LinearOrder α] (s : LibRs.HISet α) (x : α) :
    Option α × LibRs.HISet α :=
  match binarySearch s.items x with
  | .found i => (some (s.items.getD i x), ⟨removeAt s.items i⟩)
  | .notFound _ => (none, s)

/-- `HISet::contains` (`src/lib.rs`). -/
def LibRs.HISet.contains {α : Type} [LinearOrder α] (s : LibRs.HISet α)
    (x : α) : Bool :=
  (binarySearch s.items x).isFound

/-- `HISet::len` (`src/lib.rs`). -/
def LibRs.HISet.len {α : Type} (s : LibRs.HISet α) : Nat :=
  s.items.length

/-- `HISet::iter` (`src/lib.rs`). -/
def LibRs.HISet.iter {α : Type} (s : LibRs.HISet α) : List α :=
  s.items

/-- `HISet::remove_index` (`src/lib.rs` lines 60–64). -/
def LibRs.HISet.remove_index {α : Type} (s : LibRs.HISet α) (i : Nat) :
    Option (α × LibRs.HISet α) :=
  match s.items[i]? with
  | some v => some (v, ⟨removeAt s.items i⟩)
  | none => none

/-- `HISet::get_index` (`src/lib.rs` lines 66–70). -/
def LibRs.HISet.get_index {α : Type} (s : LibRs.HISet α) (i : Nat) :
    Option α :=
  s.items[i]?

/-- `HISet::get_index_mut` (`src/lib.rs` lines 72–76): same `-> &T` return
type as the `src/set.rs` copy, hence read-only for the caller. -/
def LibRs.HISet.get_index_mut {α : Type} (s : LibRs.HISet α) (i : Nat) :
    Option α :=
  s.items[i]?

/-- The public mutating operations of the `src/set.rs` `HISet`. -/
inductive SetOp (α : Type) where
  | insertOp (x : α)
  | removeOp (x : α)
  | removeIndexOp (i : Nat)
  | clearOp

/-- Run one public operation on a `SetRs.HISet`, keeping only the post-state.
An out-of-bounds `remove_index` panics, so there is no post-state to observe;
the pre-state is kept (the invariant question is moot for an aborted program,
and this is the conservative reading). -/
def SetRs.HISet.applyOp {α : Type} [LinearOrder α] (s : SetRs.HISet α) :
    SetOp α → SetRs.HISet α
  | .insertOp x => (s.insert x).2
  | .removeOp x => (s.remove x).2
  | .removeIndexOp i => ((s.remove_index i).map Prod.snd).getD s
  | .clearOp => s.clear

/-- Run a sequence of public operations starting from `HISet::new()`. -/
def SetRs.HISet.run {α : Type} [LinearOrder α] (ops : List (SetOp α)) :
    SetRs.HISet α :=
  ops.foldl SetRs.HISet.applyOp SetRs.HISet.new

/-- The public mutating operations of the `src/bag.rs` `HIBag` (no `clear`). -/
inductive BagOp (α : Type) where
  | insertOp (x : α)
  | removeOp (x : α)
  | removeIndexOp (i : Nat)

/-- Run one public operation on a `BagRs.HIBag`. -/
def BagRs.HIBag.applyOp {α : Type} [LinearOrder α] (b : BagRs.HIBag α) :
    BagOp α → BagRs.HIBag α
  | .insertOp x => b.insert x
  | .removeOp x => (b.remove x).2
  | .removeIndexOp i => ((b.remove_index i).map Prod.snd).getD b

/-- Run a sequence of public operations starting from `HIBag::new()`. -/
def BagRs.HIBag.run {α : Type} [LinearOrder α] (ops : List (BagOp α)) :
    BagRs.HIBag α :=
  ops.foldl BagRs.HIBag.applyOp BagRs.HIBag.new

/-- The mutating operations shared by the two `HISet` copies
(`src/set.rs` and `src/lib.rs`): insert, remove, remove_index. -/
inductive CommonOp (α : Type) where
  | insertOp (x : α)
  | removeOp (x : α)
  | removeIndexOp (i : Nat)

/-- Run one shared operation on the `src/set.rs` set. -/
def SetRs.HISet.applyCommon {α : Type} [LinearOrder α] (s : SetRs.HISet α) :
    CommonOp α → SetRs.HISet α
  | .insertOp x => (s.insert x).2
  | .removeOp x => (s.remove x).2
  | .removeIndexOp i => ((s.remove_index i).map Prod.snd).getD s

/-- Run a sequence of shared operations on the `src/set.rs` set. -/
def SetRs.HISet.runCommon {α : Type} [LinearOrder α]
    (ops : List (CommonOp α)) : SetRs.HISet α :=
  ops.foldl SetRs.HISet.applyCommon SetRs.HISet.new

/-- Run one shared operation on the `src/lib.rs` set. -/
def LibRs.HISet.applyCommon {α : Type} [LinearOrder α] (s : LibRs.HISet α) :
    CommonOp α → LibRs.HISet α
  | .insertOp x => (s.insert x).2
  | .removeOp x => (s.remove x).2
  | .removeIndexOp i => ((s.remove_index i).map Prod.snd).getD s

/-- Run a sequence of shared operations on the `src/lib.rs` set. -/
def LibRs.HISet.runCommon {α : Type} [LinearOrder α]
    (ops : List (CommonOp α)) : LibRs.HISet α :=
  ops.foldl LibRs.HISet.applyCommon LibRs.HISet.new

/-- In a `(· ≤ ·)`-sorted list, `getD` is monotone in the index. -/
theorem sorted_getD_le {α : Type} [LinearOrder α] {l : List α}
    (hs : l.Sorted (· ≤ ·)) (d : α) {i j : Nat} (hij : i ≤ j)
    (hj : j < l.length) : l.getD i d ≤ l.getD j d := by
  rw [List.getD_eq_getElem l d (lt_of_le_of_lt hij hj), List.getD_eq_getElem l d hj]
  rcases eq_or_lt_of_le hij with rfl | hlt
  · exact le_refl _
  · exact List.pairwise_iff_getElem.mp hs i j (lt_of_le_of_lt hij hj) hj hlt

/-- Loop invariant of `binarySearchGo` on a sorted list: a `found` result
points at an element equal to the target, and a `notFound` result splits the
search window into a strictly-smaller prefix and a strictly-larger suffix. -/
theorem binarySearchGo_spec {α : Type} [LinearOrder α] {l : List α} {x : α}
    (hs : l.Sorted (· ≤ ·)) :
    ∀ (n left right : Nat), right - left ≤ n → left ≤ right → right ≤ l.length →
      (∀ i, binarySearchGo l x left right = .found i →
          i < l.length ∧ l.getD i x = x) ∧
      (∀ i, binarySearchGo l x left right = .notFound i →
          left ≤ i ∧ i ≤ right ∧
          (∀ j, left ≤ j → j < i → l.getD j x < x) ∧
          (∀ j, i ≤ j → j < right → x < l.getD j x)) := by
  intro n
  induction n with
  | zero =>
    intro left right hn hlr hrl
    have hleft : ¬ left < right := by omega
    constructor
    · intro i hf
      rw [binarySearchGo, if_neg hleft] at hf
      cases hf
    · intro i hf
      rw [binarySearchGo, if_neg hleft] at hf
      cases hf
      exact ⟨le_refl _, hlr, fun j h1 h2 => absurd h2 (by omega),
        fun j h1 h2 => absurd h2 (by omega)⟩
  | succ n ih =>
    intro left right hn hlr hrl
    by_cases hlt : left < right
    · rw [binarySearchGo, if_pos hlt]
      by_cases h1 : l.getD (left + (right - left) / 2) x < x
      · rw [if_pos h1]
        have key := ih (left + (right - left) / 2 + 1) right (by omega)
          (by omega) hrl
        refine ⟨key.1, ?_⟩
        intro i hf
        obtain ⟨hi1, hi2, hlo, hhi⟩ := key.2 i hf
        refine ⟨by omega, hi2, ?_, hhi⟩
        intro j hj1 hj2
        by_cases hj3 : left + (right - left) / 2 + 1 ≤ j
        · exact hlo j hj3 hj2
        · exact lt_of_le_of_lt (sorted_getD_le hs x (by omega) (by omega)) h1
      · rw [if_neg h1]
        by_cases h2 : x < l.getD (left + (right - left) / 2) x
        · rw [if_pos h2]
          have key := ih left (left + (right - left) / 2) (by omega)
            (by omega) (by omega)
          refine ⟨key.1, ?_⟩
          intro i hf
          obtain ⟨hi1, hi2, hlo, hhi⟩ := key.2 i hf
          refine ⟨hi1, by omega, hlo, ?_⟩
          intro j hj1 hj2
          by_cases hj3 : j < left + (right - left) / 2
          · exact hhi j hj1 hj3
          · exact lt_of_lt_of_le h2 (sorted_getD_le hs x (by omega) (by omega))
        · rw [if_neg h2]
          constructor
          · intro i hf
            cases hf
            exact ⟨by omega, le_antisymm (not_lt.mp h2) (not_lt.mp h1)⟩
          · intro i hf
            cases hf
    · rw [binarySearchGo, if_neg hlt]
      constructor
      · intro i hf
        cases hf
      · intro i hf
        cases hf
        exact ⟨le_refl _, hlr, fun j h1 h2 => absurd h2 (by omega),
          fun j h1 h2 => absurd h2 (by omega)⟩

/-- On a sorted list, `binary_search` returning `Ok(i)` means index `i` is in
bounds and holds an element comparing equal to the target. -/
theorem binarySearch_found_spec {α : Type} [LinearOrder α] {l : List α}
    {x : α} {i : Nat} (hs : l.Sorted (· ≤ ·))
    (hf : binarySearch l x = .found i) :
    i < l.length ∧ l.getD i x = x :=
  (binarySearchGo_spec hs l.length 0 l.length (by omega) (by omega)
    (le_refl _)).1 i hf

/-- On a sorted list, `binary_search` returning `Err(i)` means `i` is the
sorted insertion point: everything before `i` is strictly below the target and
everything from `i` on is strictly above it. -/
theorem binarySearch_notFound_spec {α : Type} [LinearOrder α] {l : List α}
    {x : α} {i : Nat} (hs : l.Sorted (· ≤ ·))
    (hf : binarySearch l x = .notFound i) :
    i ≤ l.length ∧ (∀ j, j < i → l.getD j x < x) ∧
      (∀ j, i ≤ j → j < l.length → x < l.getD j x) := by
  obtain ⟨-, h2, h3, h4⟩ := (binarySearchGo_spec hs l.length 0 l.length
    (by omega) (by omega) (le_refl _)).2 i hf
  exact ⟨h2, fun j hj => h3 j (Nat.zero_le _) hj, h4⟩

/-- `Ok` from `binary_search` on a sorted list implies membership. -/
theorem binarySearch_found_mem {α : Type} [LinearOrder α] {l : List α}
    {x : α} {i : Nat} (hs : l.Sorted (· ≤ ·))
    (hf : binarySearch l x = .found i) : x ∈ l := by
  obtain ⟨h1, h2⟩ := binarySearch_found_spec hs hf
  rw [List.getD_eq_getElem l x h1] at h2
  exact h2 ▸ List.getElem_mem h1

/-- `Err` from `binary_search` on a sorted list implies non-membership. -/
theorem binarySearch_notFound_not_mem {α : Type} [LinearOrder α] {l : List α}
    {x : α} {i : Nat} (hs : l.Sorted (· ≤ ·))
    (hf : binarySearch l x = .notFound i) : x ∉ l := by
  intro hmem
  obtain ⟨j, hj, hje⟩ := List.mem_iff_getElem.mp hmem
  obtain ⟨-, h3, h4⟩ := binarySearch_notFound_spec hs hf
  by_cases hji : j < i
  · have := h3 j hji
    rw [List.getD_eq_getElem l x hj, hje] at this
    exact lt_irrefl x this
  · have := h4 j (by omega) hj
    rw [List.getD_eq_getElem l x hj, hje] at this
    exact lt_irrefl x this

/-- On a sorted list, `binary_search(..).is_ok()` decides membership. -/
theorem binarySearch_isFound_iff {α : Type} [LinearOrder α] {l : List α}
    {x : α} (hs : l.Sorted (· ≤ ·)) :
    (binarySearch l x).isFound = true ↔ x ∈ l := by
  constructor
  · intro h
    cases hf : binarySearch l x with
    | found i => exact binarySearch_found_mem hs hf
    | notFound i => rw [hf] at h; cases h
  · intro hmem
    cases hf : binarySearch l x with
    | found i => rfl
    | notFound i => exact absurd hmem (binarySearch_notFound_not_mem hs hf)

/-- Elements of `l.take i` sit at indices `j < i` of `l`. -/
theorem mem_take_imp {α : Type} {l : List α} {i : Nat} {a : α}
    (h : a ∈ l.take i) : ∃ j, ∃ hj : j < l.length, j < i ∧ l[j] = a := by
  obtain ⟨j, hj, hje⟩ := List.mem_iff_getElem.mp h
  rw [List.length_take] at hj
  refine ⟨j, by omega, by omega, ?_⟩
  rw [← hje, List.getElem_take]

/-- Elements of `l.drop i` sit at indices `j ≥ i` of `l`. -/
theorem mem_drop_imp {α : Type} {l : List α} {i : Nat} {a : α}
    (h : a ∈ l.drop i) : ∃ j, ∃ hj : j < l.length, i ≤ j ∧ l[j] = a := by
  obtain ⟨j, hj, hje⟩ := List.mem_iff_getElem.mp h
  rw [List.length_drop] at hj
  refine ⟨i + j, by omega, by omega, ?_⟩
  rw [← hje, List.getElem_drop]

/-- `Vec::insert` produces a permutation of consing the new element. -/
theorem insertAt_perm {α : Type} (l : List α) (i : Nat) (x : α) :
    (insertAt l i x).Perm (x :: l) := by
  unfold insertAt
  calc (l.take i ++ x :: l.drop i).Perm (x :: (l.take i ++ l.drop i)) :=
        List.perm_middle
  _ = x :: l := by rw [List.take_append_drop]

/-- `Vec::insert` grows the length by one. -/
theorem length_insertAt {α : Type} (l : List α) (i : Nat) (x : α) :
    (insertAt l i x).length = l.length + 1 := by
  simpa using (insertAt_perm l i x).length_eq

/-- Membership after `Vec::insert`. -/
theorem mem_insertAt {α : Type} {l : List α} {i : Nat} {x a : α} :
    a ∈ insertAt l i x ↔ a = x ∨ a ∈ l := by
  rw [(insertAt_perm l i x).mem_iff, List.mem_cons]

/-- Multiplicities after `Vec::insert`. -/
theorem count_insertAt {α : Type} [DecidableEq α] (l : List α) (i : Nat)
    (x a : α) : (insertAt l i x).count a = (x :: l).count a :=
  (insertAt_perm l i x).count_eq a

/-- Pairwise order is preserved by splicing in an element that is related to
everything before the splice point and to everything after it. -/
theorem pairwise_insertAt {α : Type} {r : α → α → Prop} {l : List α} {x : α}
    {i : Nat} (hl : l.Pairwise r)
    (hlo : ∀ a ∈ l.take i, r a x) (hhi : ∀ a ∈ l.drop i, r x a) :
    (insertAt l i x).Pairwise r := by
  have hsplit : (l.take i ++ l.drop i).Pairwise r := by
    rw [List.take_append_drop]
    exact hl
  rw [List.pairwise_append] at hsplit
  unfold insertAt
  rw [List.pairwise_append]
  refine ⟨hsplit.1, ?_, ?_⟩
  · rw [List.pairwise_cons]
    exact ⟨hhi, hsplit.2.1⟩
  · intro a ha b hb
    rcases List.mem_cons.mp hb with rfl | hb2
    · exact hlo a ha
    · exact hsplit.2.2 a ha b hb2

/-- `Vec::remove` agrees with `List.eraseIdx`. -/
theorem removeAt_eq_eraseIdx {α : Type} (l : List α) (i : Nat) :
    removeAt l i = l.eraseIdx i := by
  rw [removeAt, List.eraseIdx_eq_take_drop_succ]

/-- `Vec::remove` yields a sublist of the original vector. -/
theorem removeAt_sublist {α : Type} (l : List α) (i : Nat) :
    (removeAt l i).Sublist l := by
  rw [removeAt_eq_eraseIdx]
  exact List.eraseIdx_sublist l i

/-- Pairwise order survives `Vec::remove`. -/
theorem pairwise_removeAt {α : Type} {r : α → α → Prop} {l : List α} {i : Nat}
    (hl : l.Pairwise r) : (removeAt l i).Pairwise r :=
  hl.sublist (removeAt_sublist l i)

/-- `Vec::remove` at an in-bounds index shrinks the length by one. -/
theorem length_removeAt {α : Type} {l : List α} {i : Nat} (h : i < l.length) :
    (removeAt l i).length + 1 = l.length := by
  unfold removeAt
  rw [List.length_append, List.length_take, List.length_drop]
  omega

/-- Putting the removed element back where `Vec::remove` took it out
reconstructs the vector. -/
theorem removeAt_reassemble {α : Type} {l : List α} {i : Nat}
    (h : i < l.length) (d : α) :
    l.take i ++ l.getD i d :: l.drop (i + 1) = l := by
  rw [List.getD_eq_getElem l d h, ← List.drop_eq_getElem_cons h,
    List.take_append_drop]

/-- `Vec::remove` drops exactly one occurrence of the element it removes. -/
theorem count_removeAt {α : Type} [DecidableEq α] {l : List α} {i : Nat}
    {a : α} (h : i < l.length) (hia : l.getD i a = a) :
    (removeAt l i).count a + 1 = l.count a := by
  conv_rhs => rw [← removeAt_reassemble h a, hia]
  unfold removeAt
  rw [List.count_append, List.count_append, List.count_cons]
  simp only [beq_self_eq_true, if_true]
  omega

/-- On a sorted list, membership forces `binary_search` to return `Ok`. -/
theorem binarySearch_found_of_mem {α : Type} [LinearOrder α] {l : List α}
    {x : α} (hs : l.Sorted (· ≤ ·)) (hx : x ∈ l) :
    ∃ i, binarySearch l x = .found i := by
  cases hf : binarySearch l x with
  | found i => exact ⟨i, rfl⟩
  | notFound i => exact absurd hx (binarySearch_notFound_not_mem hs hf)

/-- `HISet::insert` (`src/set.rs`) keeps the backing vector strictly sorted. -/
theorem SetRs.set_insert_sorted {α : Type} [LinearOrder α] {s : SetRs.HISet α}
    {x : α} (hs : s.items.Sorted (· < ·)) :
    ((s.insert x).2).items.Sorted (· < ·) := by
  have hle : s.items.Sorted (· ≤ ·) := hs.imp (fun hab => le_of_lt hab)
  cases hf : binarySearch s.items x with
  | found i =>
    simp only [SetRs.HISet.insert, hf]
    exact hs
  | notFound i =>
    simp only [SetRs.HISet.insert, hf]
    obtain ⟨hi, hlo, hhi⟩ := binarySearch_notFound_spec hle hf
    apply pairwise_insertAt hs
    · intro a ha
      obtain ⟨j, hj, hji, hje⟩ := mem_take_imp ha
      have h1 := hlo j hji
      rw [List.getD_eq_getElem _ x hj, hje] at h1
      exact h1
    · intro a ha
      obtain ⟨j, hj, hij, hje⟩ := mem_drop_imp ha
      have h1 := hhi j hij hj
      rw [List.getD_eq_getElem _ x hj, hje] at h1
      exact h1

/-- `HIBag::insert` (`src/bag.rs`) keeps the backing vector sorted, in both
the `Ok` branch (splice amid the run of equal elements) and the `Err` branch
(splice at the insertion point). -/
theorem BagRs.bag_insert_sorted {α : Type} [LinearOrder α] {b : BagRs.HIBag α}
    {x : α} (hs : b.items.Sorted (· ≤ ·)) :
    (b.insert x).items.Sorted (· ≤ ·) := by
  cases hf : binarySearch b.items x with
  | found i =>
    simp only [BagRs.HIBag.insert, hf]
    obtain ⟨hi, hgd⟩ := binarySearch_found_spec hs hf
    apply pairwise_insertAt hs
    · intro a ha
      obtain ⟨j, hj, hji, hje⟩ := mem_take_imp ha
      have h1 : b.items.getD j x ≤ b.items.getD i x :=
        sorted_getD_le hs x (le_of_lt hji) hi
      rw [hgd, List.getD_eq_getElem _ x hj, hje] at h1
      exact h1
    · intro a ha
      obtain ⟨j, hj, hij, hje⟩ := mem_drop_imp ha
      have h1 : b.items.getD i x ≤ b.items.getD j x :=
        sorted_getD_le hs x hij hj
      rw [hgd, List.getD_eq_getElem _ x hj, hje] at h1
      exact h1
  | notFound i =>
    simp only [BagRs.HIBag.insert, hf]
    obtain ⟨hi, hlo, hhi⟩ := binarySearch_notFound_spec hs hf
    apply pairwise_insertAt hs
    · intro a ha
      obtain ⟨j, hj, hji, hje⟩ := mem_take_imp ha
      have h1 := hlo j hji
      rw [List.getD_eq_getElem _ x hj, hje] at h1
      exact le_of_lt h1
    · intro a ha
      obtain ⟨j, hj, hij, hje⟩ := mem_drop_imp ha
      have h1 := hhi j hij hj
      rw [List.getD_eq_getElem _ x hj, hje] at h1
      exact le_of_lt h1

/-- Every public `src/set.rs` operation preserves strict sortedness. -/
theorem SetRs.set_applyOp_sorted {α : Type} [LinearOrder α] {s : SetRs.HISet α}
    (hs : s.items.Sorted (· < ·)) (op : SetOp α) :
    (s.applyOp op).items.Sorted (· < ·) := by
  cases op with
  | insertOp x => exact SetRs.set_insert_sorted hs
  | removeOp x =>
    cases hf : binarySearch s.items x with
    | found i =>
      simp only [SetRs.HISet.applyOp, SetRs.HISet.remove, hf]
      exact pairwise_removeAt hs
    | notFound i =>
      simp only [SetRs.HISet.applyOp, SetRs.HISet.remove, hf]
      exact hs
  | removeIndexOp i =>
    cases hv : s.items[i]? with
    | some v =>
      simp only [SetRs.HISet.applyOp, SetRs.HISet.remove_index, hv,
        Option.map_some, Option.getD_some]
      exact pairwise_removeAt hs
    | none =>
      simp only [SetRs.HISet.applyOp, SetRs.HISet.remove_index, hv,
        Option.map_none, Option.getD_none]
      exact hs
  | clearOp =>
    simp [SetRs.HISet.applyOp, SetRs.HISet.clear]

/-- Every public `src/bag.rs` operation preserves sortedness. -/
theorem BagRs.bag_applyOp_sorted {α : Type} [LinearOrder α] {b : BagRs.HIBag α}
    (hs : b.items.Sorted (· ≤ ·)) (op : BagOp α) :
    (b.applyOp op).items.Sorted (· ≤ ·) := by
  cases op with
  | insertOp x => exact BagRs.bag_insert_sorted hs
  | removeOp x =>
    cases hf : binarySearch b.items x with
    | found i =>
      simp only [BagRs.HIBag.applyOp, BagRs.HIBag.remove, hf]
      exact pairwise_removeAt hs
    | notFound i =>
      simp only [BagRs.HIBag.applyOp, BagRs.HIBag.remove, hf]
      exact hs
  | removeIndexOp i =>
    cases hv : b.items[i]? with
    | some v =>
      simp only [BagRs.HIBag.applyOp, BagRs.HIBag.remove_index, hv,
        Option.map_some, Option.getD_some]
      exact pairwise_removeAt hs
    | none =>
      simp only [BagRs.HIBag.applyOp, BagRs.HIBag.remove_index, hv,
        Option.map_none, Option.getD_none]
      exact hs

/-- Every state of the `src/set.rs` set reachable from `HISet::new()` by
public operations has a strictly sorted backing vector. -/
theorem SetRs.run_sorted_strict {α : Type} [LinearOrder α]
    (ops : List (SetOp α)) : (SetRs.HISet.run ops).items.Sorted (· < ·) := by
  suffices h : ∀ (s : SetRs.HISet α), s.items.Sorted (· < ·) →
      (ops.foldl SetRs.HISet.applyOp s).items.Sorted (· < ·) by
    exact h SetRs.HISet.new (List.sorted_nil)
  induction ops with
  | nil => exact fun s hs => hs
  | cons op ops ih => exact fun s hs => ih _ (SetRs.set_applyOp_sorted hs op)

/-- Every state of the `src/bag.rs` bag reachable from `HIBag::new()` by
public operations has a sorted backing vector. -/
theorem BagRs.run_sorted {α : Type} [LinearOrder α]
    (ops : List (BagOp α)) : (BagRs.HIBag.run ops).items.Sorted (· ≤ ·) := by
  suffices h : ∀ (b : BagRs.HIBag α), b.items.Sorted (· ≤ ·) →
      (ops.foldl BagRs.HIBag.applyOp b).items.Sorted (· ≤ ·) by
    exact h BagRs.HIBag.new (List.sorted_nil)
  induction ops with
  | nil => exact fun b hb => hb
  | cons op ops ih => exact fun b hb => ih _ (BagRs.bag_applyOp_sorted hb op)

/-- `HISet::contains` (`src/set.rs`) decides membership on sorted states. -/
theorem SetRs.set_contains_iff {α : Type} [LinearOrder α] {s : SetRs.HISet α}
    {x : α} (hs : s.items.Sorted (· ≤ ·)) :
    s.contains x = true ↔ x ∈ s.items := by
  simpa [SetRs.HISet.contains] using binarySearch_isFound_iff hs

/-- `HIBag::contains` (`src/bag.rs`) decides membership on sorted states. -/
theorem BagRs.bag_contains_iff {α : Type} [LinearOrder α] {b : BagRs.HIBag α}
    {x : α} (hs : b.items.Sorted (· ≤ ·)) :
    b.contains x = true ↔ x ∈ b.items := by
  simpa [BagRs.HIBag.contains] using binarySearch_isFound_iff hs

/-- On a sorted state, inserting an element that is already present is a
no-op returning `true`. -/
theorem SetRs.insert_mem_eq {α : Type} [LinearOrder α] {s : SetRs.HISet α}
    {x : α} (hs : s.items.Sorted (· ≤ ·)) (hx : x ∈ s.items) :
    s.insert x = (true, s) := by
  obtain ⟨i, hf⟩ := binarySearch_found_of_mem hs hx
  simp [SetRs.HISet.insert, hf]

/-- On a sorted state, inserting an absent element splices it in at the
`Err` index and returns `false`. -/
theorem SetRs.insert_not_mem_eq {α : Type} [LinearOrder α] {s : SetRs.HISet α}
    {x : α} (hs : s.items.Sorted (· ≤ ·)) (hx : x ∉ s.items) :
    ∃ i, binarySearch s.items x = .notFound i ∧
      s.insert x = (false, ⟨insertAt s.items i x⟩) := by
  cases hf : binarySearch s.items x with
  | found i => exact absurd (binarySearch_found_mem hs hf) hx
  | notFound i => exact ⟨i, rfl, by simp [SetRs.HISet.insert, hf]⟩

/-- Membership after `HISet::insert` on a sorted state. -/
theorem SetRs.mem_insert_iff {α : Type} [LinearOrder α] {s : SetRs.HISet α}
    {x a : α} (hs : s.items.Sorted (· ≤ ·)) :
    a ∈ ((s.insert x).2).items ↔ a = x ∨ a ∈ s.items := by
  cases hf : binarySearch s.items x with
  | found i =>
    simp only [SetRs.HISet.insert, hf]
    have hx : x ∈ s.items := binarySearch_found_mem hs hf
    constructor
    · exact Or.inr
    · rintro (rfl | h)
      · exact hx
      · exact h
  | notFound i =>
    simp only [SetRs.HISet.insert, hf]
    exact mem_insertAt

/-- The set built by `FromIterator` (`src/set.rs`) from a starting state:
strict sortedness is maintained and the final members are the starting
members together with the fed elements. -/
theorem SetRs.foldl_insert_spec {α : Type} [LinearOrder α] (l : List α) :
    ∀ (s : SetRs.HISet α), s.items.Sorted (· < ·) →
      (l.foldl (fun t y => (t.insert y).2) s).items.Sorted (· < ·) ∧
      (∀ a, a ∈ (l.foldl (fun t y => (t.insert y).2) s).items ↔
        a ∈ s.items ∨ a ∈ l) := by
  induction l with
  | nil =>
    intro s hs
    refine ⟨hs, fun a => ?_⟩
    simp
  | cons y l ih =>
    intro s hs
    have hsy : ((s.insert y).2).items.Sorted (· < ·) := SetRs.set_insert_sorted hs
    obtain ⟨h1, h2⟩ := ih ((s.insert y).2) hsy
    refine ⟨h1, fun a => ?_⟩
    rw [List.foldl_cons] at *
    rw [h2 a, SetRs.mem_insert_iff (hs.imp (fun hab => le_of_lt hab))]
    simp [List.mem_cons]
    tauto

/-- `HISet::from_iter` yields a strictly sorted vector whose members are
exactly the members of the input sequence. -/
theorem SetRs.fromIter_spec {α : Type} [LinearOrder α] (l : List α) :
    (SetRs.HISet.fromIter l).items.Sorted (· < ·) ∧
      (∀ a, a ∈ (SetRs.HISet.fromIter l).items ↔ a ∈ l) := by
  obtain ⟨h1, h2⟩ := SetRs.foldl_insert_spec l SetRs.HISet.new List.sorted_nil
  refine ⟨h1, fun a => ?_⟩
  rw [SetRs.HISet.fromIter, h2 a]
  simp [SetRs.HISet.new]

/-- A list containing at least two copies of `a` has two distinct positions
both reading back `a`. -/
theorem two_le_count_exists_getElem {α : Type} [DecidableEq α] :
    ∀ (l : List α) (a : α), 2 ≤ l.count a →
      ∃ (i j : Nat), i < j ∧ l[i]? = some a ∧ l[j]? = some a := by
  intro l a hc
  obtain ⟨n, m, hnm, hn, hm⟩ :=
    List.duplicate_iff_exists_distinct_get.mp
      (List.duplicate_iff_two_le_count.mpr hc)
  refine ⟨n.val, m.val, hnm, ?_, ?_⟩
  · rw [List.getElem?_eq_getElem n.isLt, hn, List.get_eq_getElem]
  · rw [List.getElem?_eq_getElem m.isLt, hm, List.get_eq_getElem]

/-- `HIBag::insert` always grows `len` by exactly one (both branches splice),
on any state whatsoever. -/
theorem BagRs.insert_len {α : Type} [LinearOrder α] (b : BagRs.HIBag α)
    (y : α) : (b.insert y).len = b.len + 1 := by
  cases hf : binarySearch b.items y <;>
    simp [BagRs.HIBag.insert, hf, BagRs.HIBag.len, length_insertAt]

/-- `HIBag::insert` adds exactly one occurrence of the inserted element. -/
theorem BagRs.insert_count {α : Type} [LinearOrder α] [DecidableEq α]
    (b : BagRs.HIBag α) (y a : α) :
    (b.insert y).items.count a = (y :: b.items).count a := by
  cases hf : binarySearch b.items y <;>
    simp only [BagRs.HIBag.insert, hf] <;>
    exact count_insertAt _ _ _ _

/-- `HIBag::remove` on a sorted state containing the item: returns the item,
shrinks `len` by one and the item's multiplicity by exactly one. -/
theorem BagRs.bag_remove_mem_spec {α : Type} [LinearOrder α] [DecidableEq α]
    {b : BagRs.HIBag α} {x : α} (hs : b.items.Sorted (· ≤ ·))
    (hx : x ∈ b.items) :
    (b.remove x).1 = some x ∧ ((b.remove x).2).len + 1 = b.len ∧
      ((b.remove x).2).items.count x + 1 = b.items.count x := by
  obtain ⟨i, hf⟩ := binarySearch_found_of_mem hs hx
  obtain ⟨hi, hgd⟩ := binarySearch_found_spec hs hf
  refine ⟨?_, ?_, ?_⟩
  · simp only [BagRs.HIBag.remove, hf]
    exact congrArg some hgd
  · simp only [BagRs.HIBag.remove, hf, BagRs.HIBag.len]
    exact length_removeAt hi
  · simp only [BagRs.HIBag.remove, hf]
    exact count_removeAt hi hgd

/-- `HISet::remove` on a strictly sorted state containing the item: returns
the item, shrinks `len` by one, and afterwards `contains` is false. -/
theorem SetRs.set_remove_mem_spec {α : Type} [LinearOrder α] [DecidableEq α]
    {s : SetRs.HISet α} {x : α} (hs : s.items.Sorted (· < ·))
    (hx : x ∈ s.items) :
    (s.remove x).1 = some x ∧ ((s.remove x).2).len + 1 = s.len ∧
      ((s.remove x).2).contains x = false := by
  have hle : s.items.Sorted (· ≤ ·) := hs.imp (fun hab => le_of_lt hab)
  obtain ⟨i, hf⟩ := binarySearch_found_of_mem hle hx
  obtain ⟨hi, hgd⟩ := binarySearch_found_spec hle hf
  have hs2 : ((s.remove x).2).items.Sorted (· < ·) := by
    simp only [SetRs.HISet.remove, hf]
    exact pairwise_removeAt hs
  have hcount : s.items.count x = 1 :=
    List.count_eq_one_of_mem hs.nodup hx
  have h0 : ((s.remove x).2).items.count x = 0 := by
    have hcr := count_removeAt hi hgd
    have hre : ((s.remove x).2).items = removeAt s.items i := by
      simp [SetRs.HISet.remove, hf]
    rw [hre]
    omega
  have hnotmem : x ∉ ((s.remove x).2).items := List.count_eq_zero.mp h0
  refine ⟨?_, ?_, ?_⟩
  · simp only [SetRs.HISet.remove, hf]
    exact congrArg some hgd
  · simp only [SetRs.HISet.remove, hf, SetRs.HISet.len]
    exact length_removeAt hi
  · cases hcv : ((s.remove x).2).contains x with
    | false => rfl
    | true =>
      exact absurd ((SetRs.set_contains_iff
        (hs2.imp (fun hab => le_of_lt hab))).mp hcv) hnotmem

/-- One shared operation keeps the two `HISet` copies' vectors equal. -/
theorem LibRs.applyCommon_items_eq {α : Type} [LinearOrder α]
    (s : SetRs.HISet α) (t : LibRs.HISet α) (h : s.items = t.items)
    (op : CommonOp α) : (s.applyCommon op).items = (t.applyCommon op).items := by
  cases op with
  | insertOp x =>
    cases hf : binarySearch t.items x with
    | found i =>
      simp only [SetRs.HISet.applyCommon, LibRs.HISet.applyCommon,
        SetRs.HISet.insert, LibRs.HISet.insert, h, hf]
    | notFound i =>
      simp only [SetRs.HISet.applyCommon, LibRs.HISet.applyCommon,
        SetRs.HISet.insert, LibRs.HISet.insert, h, hf]
  | removeOp x =>
    cases hf : binarySearch t.items x with
    | found i =>
      simp only [SetRs.HISet.applyCommon, LibRs.HISet.applyCommon,
        SetRs.HISet.remove, LibRs.HISet.remove, h, hf]
    | notFound i =>
      simp only [SetRs.HISet.applyCommon, LibRs.HISet.applyCommon,
        SetRs.HISet.remove, LibRs.HISet.remove, h, hf]
  | removeIndexOp i =>
    cases hv : t.items[i]? with
    | some v =>
      simp [SetRs.HISet.applyCommon, LibRs.HISet.applyCommon,
        SetRs.HISet.remove_index, LibRs.HISet.remove_index, h, hv]
    | none =>
      simp only [SetRs.HISet.applyCommon, LibRs.HISet.applyCommon,
        SetRs.HISet.remove_index, LibRs.HISet.remove_index, h, hv,
        Option.map_none, Option.getD_none]
      exact h

/-- Runs of shared operations from the two `new()`s keep the vectors equal. -/
theorem LibRs.runCommon_items_eq {α : Type} [LinearOrder α]
    (ops : List (CommonOp α)) :
    (SetRs.HISet.runCommon ops).items = (LibRs.HISet.runCommon ops).items := by
  suffices h : ∀ (s : SetRs.HISet α) (t : LibRs.HISet α), s.items = t.items →
      (ops.foldl SetRs.HISet.applyCommon s).items
        = (ops.foldl LibRs.HISet.applyCommon t).items by
    exact h SetRs.HISet.new LibRs.HISet.new rfl
  induction ops with
  | nil => exact fun s t h => h
  | cons op ops ih =>
    exact fun s t h => ih _ _ (LibRs.applyCommon_items_eq s t h op)

/-- With equal vectors, every shared observation of the two `HISet` copies
agrees (the two definitions are textually identical on these operations). -/
theorem LibRs.obs_eq_of_items_eq {α : Type} [LinearOrder α]
    (s : SetRs.HISet α) (t : LibRs.HISet α) (h : s.items = t.items) :
    s.iter = t.iter ∧ s.len = t.len ∧
    (∀ x, s.contains x = t.contains x) ∧
    (∀ x, (s.insert x).1 = (t.insert x).1 ∧
          ((s.insert x).2).items = ((t.insert x).2).items) ∧
    (∀ x, (s.remove x).1 = (t.remove x).1 ∧
          ((s.remove x).2).items = ((t.remove x).2).items) ∧
    (∀ i, s.get_index i = t.get_index i ∧
          s.get_index_mut i = t.get_index_mut i ∧
          (s.remove_index i).map Prod.fst = (t.remove_index i).map Prod.fst ∧
          (s.remove_index i).map (fun p => (p.2).items)
            = (t.remove_index i).map (fun p => (p.2).items)) := by
  refine ⟨h, ?_, ?_, ?_, ?_, ?_⟩
  · simp [SetRs.HISet.len, LibRs.HISet.len, h]
  · intro x
    simp [SetRs.HISet.contains, LibRs.HISet.contains, h]
  · intro x
    cases hf : binarySearch t.items x with
    | found i =>
      constructor <;>
        simp only [SetRs.HISet.insert, LibRs.HISet.insert, h, hf]
    | notFound i =>
      constructor <;>
        simp only [SetRs.HISet.insert, LibRs.HISet.insert, h, hf]
  · intro x
    cases hf : binarySearch t.items x with
    | found i =>
      constructor <;>
        simp only [SetRs.HISet.remove, LibRs.HISet.remove, h, hf]
    | notFound i =>
      constructor <;>
        simp only [SetRs.HISet.remove, LibRs.HISet.remove, h, hf]
  · intro i
    cases hv : t.items[i]? with
    | some v =>
      refine ⟨?_, ?_, ?_, ?_⟩ <;>
        simp [SetRs.HISet.get_index, LibRs.HISet.get_index,
          SetRs.HISet.get_index_mut, LibRs.HISet.get_index_mut,
          SetRs.HISet.remove_index, LibRs.HISet.remove_index, h, hv]
    | none =>
      refine ⟨?_, ?_, ?_, ?_⟩ <;>
        simp [SetRs.HISet.get_index, LibRs.HISet.get_index,
          SetRs.HISet.get_index_mut, LibRs.HISet.get_index_mut,
          SetRs.HISet.remove_index, LibRs.HISet.remove_index, h, hv]

/-- C1: Sort invariant — for every element type with a total order and every
sequence of public mutating operations applied starting from the empty
container (insert/remove/remove_index/clear on the set,
insert/remove/remove_index on the bag), after each operation returns,
iterating the container yields its elements in non-decreasing comparison
order. -/
theorem C1_sort_invariant {α : Type} [LinearOrder α] :
    (∀ ops : List (SetOp α), ((SetRs.HISet.run ops).iter).Sorted (· ≤ ·)) ∧
    (∀ ops : List (BagOp α), ((BagRs.HIBag.run ops).iter).Sorted (· ≤ ·)) :=
  ⟨fun ops => (SetRs.run_sorted_strict ops).imp (fun hab => le_of_lt hab),
   fun ops => BagRs.run_sorted ops⟩

/-- C2 counterexample: the claim quantifies over any set — but on the
reachable set state {0}, inserting 0 twice leaves `len()` unchanged, so the
pair of inserts does not increase `len()` by exactly 1 there. -/
theorem C2_counterexample :
    ¬ ((((SetRs.HISet.new.insert (0 : Int)).2.insert 0).2.insert 0).2.len
        = ((SetRs.HISet.new.insert (0 : Int)).2).len + 1) := by
  simp [SetRs.HISet.new, SetRs.HISet.insert, SetRs.HISet.len,
    binarySearch, binarySearchGo, insertAt]

/-- C2 (amended): every reachable `src/set.rs` set state has pairwise
distinct elements; and for every strictly sorted set state not containing an
element comparing equal to `x`, `insert x` twice increases `len` by exactly
1 in total, the second insert is a no-op, and `contains x` holds
afterwards. -/
theorem C2_uniqueness {α : Type} [LinearOrder α] :
    (∀ ops : List (SetOp α), ((SetRs.HISet.run ops).items).Pairwise (· ≠ ·)) ∧
    (∀ (s : SetRs.HISet α) (x : α), s.items.Sorted (· < ·) →
      s.contains x = false →
        ((s.insert x).2.insert x).2.len = s.len + 1 ∧
        ((s.insert x).2.insert x).2 = (s.insert x).2 ∧
        ((s.insert x).2.insert x).2.contains x = true) := by
  constructor
  · intro ops
    exact (SetRs.run_sorted_strict ops).imp (fun hab => ne_of_lt hab)
  · intro s x hs hc
    have hle : s.items.Sorted (· ≤ ·) := hs.imp (fun hab => le_of_lt hab)
    have hx : x ∉ s.items := by
      intro hmem
      rw [(SetRs.set_contains_iff hle).mpr hmem] at hc
      cases hc
    obtain ⟨i, hf, he⟩ := SetRs.insert_not_mem_eq hle hx
    have hs1 : ((s.insert x).2).items.Sorted (· < ·) := SetRs.set_insert_sorted hs
    have hle1 : ((s.insert x).2).items.Sorted (· ≤ ·) :=
      hs1.imp (fun hab => le_of_lt hab)
    have hmem1 : x ∈ ((s.insert x).2).items :=
      (SetRs.mem_insert_iff hle).mpr (Or.inl rfl)
    have hsecond : ((s.insert x).2).insert x = (true, (s.insert x).2) :=
      SetRs.insert_mem_eq hle1 hmem1
    refine ⟨?_, ?_, ?_⟩
    · rw [hsecond, he]
      simp [SetRs.HISet.len, length_insertAt]
    · rw [hsecond]
    · rw [hsecond]
      exact (SetRs.set_contains_iff hle1).mpr hmem1

/-- Witness for C2: the amended statement instantiated on the strictly
sorted set {1, 3} and x = 2. -/
theorem C2_uniqueness_witness :
    (SetRs.HISet.mk [1, 3] : SetRs.HISet Int).items.Sorted (· < ·) ∧
    (SetRs.HISet.mk [1, 3] : SetRs.HISet Int).contains 2 = false ∧
    (((SetRs.HISet.mk [1, 3] : SetRs.HISet Int).insert 2).2.insert 2).2.len
      = (SetRs.HISet.mk [1, 3] : SetRs.HISet Int).len + 1 :=
  ⟨by decide,
   by simp [SetRs.HISet.contains, binarySearch, binarySearchGo,
      BSResult.isFound],
   (C2_uniqueness.2 (SetRs.HISet.mk [1, 3]) 2 (by decide)
     (by simp [SetRs.HISet.contains, binarySearch, binarySearchGo,
        BSResult.isFound])).1⟩

/-- C3: `HISet::insert` return polarity — on a strictly sorted set state,
if an element comparing equal to `x` is present the call returns `true` and
leaves the set unchanged; otherwise it returns `false`, grows `len` by one,
and splices `x` into the sequence at its sorted position (the result is
sorted and a permutation of `x` consed onto the old sequence). -/
theorem C3_insert_polarity {α : Type} [LinearOrder α] (s : SetRs.HISet α)
    (x : α) (hs : s.items.Sorted (· < ·)) :
    (x ∈ s.items → s.insert x = (true, s)) ∧
    (x ∉ s.items →
      (s.insert x).1 = false ∧
      (s.insert x).2.len = s.len + 1 ∧
      ((s.insert x).2).items.Sorted (· < ·) ∧
      ((s.insert x).2).items.Perm (x :: s.items)) := by
  have hle : s.items.Sorted (· ≤ ·) := hs.imp (fun hab => le_of_lt hab)
  constructor
  · exact fun hx => SetRs.insert_mem_eq hle hx
  · intro hx
    obtain ⟨i, hf, he⟩ := SetRs.insert_not_mem_eq hle hx
    refine ⟨by rw [he], ?_, SetRs.set_insert_sorted hs, ?_⟩
    · rw [he]
      simp [SetRs.HISet.len, length_insertAt]
    · rw [he]
      exact insertAt_perm _ _ _

/-- Witness for C3: the set {1, 3} with the present item 3 and the absent
item 2. -/
theorem C3_insert_polarity_witness :
    (SetRs.HISet.mk [1, 3] : SetRs.HISet Int).items.Sorted (· < ·) ∧
    (SetRs.HISet.mk [1, 3] : SetRs.HISet Int).insert 3
      = (true, SetRs.HISet.mk [1, 3]) ∧
    ((SetRs.HISet.mk [1, 3] : SetRs.HISet Int).insert 2).1 = false :=
  ⟨by decide,
   (C3_insert_polarity (SetRs.HISet.mk [1, 3]) 3 (by decide)).1 (by decide),
   ((C3_insert_polarity (SetRs.HISet.mk [1, 3]) 2 (by decide)).2
     (by decide)).1⟩

/-- C4: bag multiplicity — `HIBag::insert` always inserts (it returns no
presence flag and grows `len` by one on every state); inserting `x` twice
into a sorted bag not yet containing `x` grows `len` by 2 and leaves two
copies of `x`, both retrievable by position; one subsequent `remove`
returns `x`, shrinks `len` by 1 and leaves exactly one copy of `x`. -/
theorem C4_bag_multiplicity {α : Type} [LinearOrder α] [DecidableEq α]
    (b : BagRs.HIBag α) (x : α) (hs : b.items.Sorted (· ≤ ·))
    (hx : x ∉ b.items) :
    (∀ (c : BagRs.HIBag α) (y : α), (c.insert y).len = c.len + 1) ∧
    ((b.insert x).insert x).len = b.len + 2 ∧
    ((b.insert x).insert x).items.count x = 2 ∧
    (∃ (i j : Nat), i < j ∧ ((b.insert x).insert x).get_index i = some x ∧
      ((b.insert x).insert x).get_index j = some x) ∧
    (((b.insert x).insert x).remove x).1 = some x ∧
    ((((b.insert x).insert x).remove x).2).len + 1
      = ((b.insert x).insert x).len ∧
    ((((b.insert x).insert x).remove x).2).items.count x = 1 := by
  have hc0 : b.items.count x = 0 := List.count_eq_zero.mpr hx
  have hc2 : ((b.insert x).insert x).items.count x = 2 := by
    rw [BagRs.insert_count, List.count_cons, BagRs.insert_count,
      List.count_cons]
    simp [hc0]
  have hs2 : ((b.insert x).insert x).items.Sorted (· ≤ ·) :=
    BagRs.bag_insert_sorted (BagRs.bag_insert_sorted hs)
  have hmem2 : x ∈ ((b.insert x).insert x).items := by
    rw [← List.count_pos_iff]
    omega
  obtain ⟨hr1, hr2, hr3⟩ := BagRs.bag_remove_mem_spec hs2 hmem2
  obtain ⟨i, j, hij, hgi, hgj⟩ :=
    two_le_count_exists_getElem ((b.insert x).insert x).items x (by omega)
  refine ⟨fun c y => BagRs.insert_len c y, ?_, hc2,
    ⟨i, j, hij, hgi, hgj⟩, hr1, hr2, by omega⟩
  rw [BagRs.insert_len, BagRs.insert_len]

/-- Witness for C4: the sorted bag {2} and x = 1. -/
theorem C4_bag_multiplicity_witness :
    (BagRs.HIBag.mk [2] : BagRs.HIBag Int).items.Sorted (· ≤ ·) ∧
    (1 : Int) ∉ (BagRs.HIBag.mk [2] : BagRs.HIBag Int).items ∧
    (((BagRs.HIBag.mk [2] : BagRs.HIBag Int).insert 1).insert 1).len
      = (BagRs.HIBag.mk [2] : BagRs.HIBag Int).len + 2 :=
  ⟨by decide, by decide,
   (C4_bag_multiplicity (BagRs.HIBag.mk [2]) 1 (by decide) (by decide)).2.1⟩

/-- C5: round-trip removal — on a sorted container state containing an
element comparing equal to `x`, `remove x` returns `some x`, shrinks `len`
by exactly one, and afterwards `contains x` is false on the set while the
bag's multiplicity of `x` drops by exactly one. -/
theorem C5_round_trip {α : Type} [LinearOrder α] [DecidableEq α] :
    (∀ (s : SetRs.HISet α) (x : α), s.items.Sorted (· < ·) → x ∈ s.items →
      (s.remove x).1 = some x ∧ ((s.remove x).2).len + 1 = s.len ∧
      ((s.remove x).2).contains x = false) ∧
    (∀ (b : BagRs.HIBag α) (x : α), b.items.Sorted (· ≤ ·) → x ∈ b.items →
      (b.remove x).1 = some x ∧ ((b.remove x).2).len + 1 = b.len ∧
      ((b.remove x).2).items.count x + 1 = b.items.count x) :=
  ⟨fun _ _ hs hx => SetRs.set_remove_mem_spec hs hx,
   fun _ _ hs hx => BagRs.bag_remove_mem_spec hs hx⟩

/-- Witness for C5: the set {1, 2} with x = 1, and the bag {1, 1, 2} with
x = 1. -/
theorem C5_round_trip_witness :
    ((SetRs.HISet.mk [1, 2] : SetRs.HISet Int).items.Sorted (· < ·) ∧
      (1 : Int) ∈ (SetRs.HISet.mk [1, 2] : SetRs.HISet Int).items ∧
      ((SetRs.HISet.mk [1, 2] : SetRs.HISet Int).remove 1).1 = some 1) ∧
    ((BagRs.HIBag.mk [1, 1, 2] : BagRs.HIBag Int).items.Sorted (· ≤ ·) ∧
      (1 : Int) ∈ (BagRs.HIBag.mk [1, 1, 2] : BagRs.HIBag Int).items ∧
      (((BagRs.HIBag.mk [1, 1, 2] : BagRs.HIBag Int).remove 1).2).items.count 1
          + 1
        = (BagRs.HIBag.mk [1, 1, 2] : BagRs.HIBag Int).items.count 1) :=
  ⟨⟨by decide, by decide,
    (C5_round_trip.1 (SetRs.HISet.mk [1, 2]) 1 (by decide) (by decide)).1⟩,
   ⟨by decide, by decide,
    (C5_round_trip.2 (BagRs.HIBag.mk [1, 1, 2]) 1 (by decide)
      (by decide)).2.2⟩⟩

/-- C6: absence atomicity — on a sorted container state with no element
comparing equal to `x`, `remove x` returns `none` and the whole container
state afterward equals the state before the call. -/
theorem C6_absence {α : Type} [LinearOrder α] :
    (∀ (s : SetRs.HISet α) (x : α), s.items.Sorted (· ≤ ·) → x ∉ s.items →
        s.remove x = (none, s)) ∧
    (∀ (b : BagRs.HIBag α) (x : α), b.items.Sorted (· ≤ ·) → x ∉ b.items →
        b.remove x = (none, b)) := by
  constructor
  · intro s x hs hx
    cases hf : binarySearch s.items x with
    | found i => exact absurd (binarySearch_found_mem hs hf) hx
    | notFound i => simp [SetRs.HISet.remove, hf]
  · intro b x hs hx
    cases hf : binarySearch b.items x with
    | found i => exact absurd (binarySearch_found_mem hs hf) hx
    | notFound i => simp [BagRs.HIBag.remove, hf]

/-- Witness for C6: removing the absent 2 from the set {1, 3} and from the
bag {1, 3}. -/
theorem C6_absence_witness :
    ((SetRs.HISet.mk [1, 3] : SetRs.HISet Int).items.Sorted (· ≤ ·) ∧
      (2 : Int) ∉ (SetRs.HISet.mk [1, 3] : SetRs.HISet Int).items ∧
      (SetRs.HISet.mk [1, 3] : SetRs.HISet Int).remove 2
        = (none, SetRs.HISet.mk [1, 3])) ∧
    ((BagRs.HIBag.mk [1, 3] : BagRs.HIBag Int).items.Sorted (· ≤ ·) ∧
      (2 : Int) ∉ (BagRs.HIBag.mk [1, 3] : BagRs.HIBag Int).items ∧
      (BagRs.HIBag.mk [1, 3] : BagRs.HIBag Int).remove 2
        = (none, BagRs.HIBag.mk [1, 3])) :=
  ⟨⟨by decide, by decide,
    C6_absence.1 (SetRs.HISet.mk [1, 3]) 2 (by decide) (by decide)⟩,
   ⟨by decide, by decide,
    C6_absence.2 (BagRs.HIBag.mk [1, 3]) 2 (by decide) (by decide)⟩⟩

/-- C7: bounds failure — on every container state (including the empty one),
`get_index`, `get_index_mut` (set only), `remove_index`, and the positional
`Index`/`IndexMut` operators panic (modelled as `none`) exactly when the
index is at least `len()`, and never when the index is below `len()`. -/
theorem C7_bounds {α : Type} :
    (∀ (s : SetRs.HISet α) (i : Nat),
      (s.len ≤ i →
        s.get_index i = none ∧ s.get_index_mut i = none ∧
        s.remove_index i = none ∧ s.index i = none ∧ s.index_mut i = none) ∧
      (i < s.len →
        (s.get_index i).isSome = true ∧ (s.get_index_mut i).isSome = true ∧
        (s.remove_index i).isSome = true ∧ (s.index i).isSome = true ∧
        (s.index_mut i).isSome = true)) ∧
    (∀ (b : BagRs.HIBag α) (i : Nat),
      (b.len ≤ i →
        b.get_index i = none ∧ b.remove_index i = none ∧ b.index i = none) ∧
      (i < b.len →
        (b.get_index i).isSome = true ∧ (b.remove_index i).isSome = true ∧
        (b.index i).isSome = true)) := by
  constructor
  · intro s i
    constructor
    · intro h
      have h2 : s.items.length ≤ i := h
      have hnone : s.items[i]? = none := List.getElem?_eq_none h2
      simp [SetRs.HISet.get_index, SetRs.HISet.get_index_mut,
        SetRs.HISet.remove_index, SetRs.HISet.index, SetRs.HISet.index_mut,
        hnone]
    · intro h
      have h2 : i < s.items.length := h
      have hsome := List.getElem?_eq_getElem h2
      simp [SetRs.HISet.get_index, SetRs.HISet.get_index_mut,
        SetRs.HISet.remove_index, SetRs.HISet.index, SetRs.HISet.index_mut,
        hsome]
  · intro b i
    constructor
    · intro h
      have h2 : b.items.length ≤ i := h
      have hnone : b.items[i]? = none := List.getElem?_eq_none h2
      simp [BagRs.HIBag.get_index, BagRs.HIBag.remove_index,
        BagRs.HIBag.index, hnone]
    · intro h
      have h2 : i < b.items.length := h
      have hsome := List.getElem?_eq_getElem h2
      simp [BagRs.HIBag.get_index, BagRs.HIBag.remove_index,
        BagRs.HIBag.index, hsome]

/-- Witness for C7: the singleton set and bag {5}, probed at the
out-of-bounds index 1 (also the length) and the in-bounds index 0. -/
theorem C7_bounds_witness :
    ((SetRs.HISet.mk [5] : SetRs.HISet Int).len ≤ 1 ∧
      (SetRs.HISet.mk [5] : SetRs.HISet Int).get_index 1 = none) ∧
    (0 < (SetRs.HISet.mk [5] : SetRs.HISet Int).len ∧
      ((SetRs.HISet.mk [5] : SetRs.HISet Int).remove_index 0).isSome
        = true) ∧
    ((BagRs.HIBag.mk [5] : BagRs.HIBag Int).len ≤ 1 ∧
      (BagRs.HIBag.mk [5] : BagRs.HIBag Int).get_index 1 = none) :=
  ⟨⟨by decide, ((C7_bounds.1 (SetRs.HISet.mk [5]) 1).1 (by decide)).1⟩,
   ⟨by decide, ((C7_bounds.1 (SetRs.HISet.mk [5]) 0).2 (by decide)).2.2.1⟩,
   ⟨by decide, ((C7_bounds.2 (BagRs.HIBag.mk [5]) 1).1 (by decide)).1⟩⟩

/-- C8: insertion-order independence — two sets built through
`FromIterator` (each element fed through the normal insert path) from any
two sequences that are permutations of each other are equal as structures,
and therefore every function of the structure — in particular the derived
structural hash — agrees on them. -/
theorem C8_order_independence {α : Type} [LinearOrder α]
    (l1 l2 : List α) (hperm : l1.Perm l2) :
    SetRs.HISet.fromIter l1 = SetRs.HISet.fromIter l2 ∧
    ∀ (hash : SetRs.HISet α → Nat),
      hash (SetRs.HISet.fromIter l1) = hash (SetRs.HISet.fromIter l2) := by
  obtain ⟨hs1, hm1⟩ := SetRs.fromIter_spec l1
  obtain ⟨hs2, hm2⟩ := SetRs.fromIter_spec l2
  have hext : ∀ a, a ∈ (SetRs.HISet.fromIter l1).items ↔
      a ∈ (SetRs.HISet.fromIter l2).items := by
    intro a
    rw [hm1 a, hm2 a]
    exact hperm.mem_iff
  have hp : (SetRs.HISet.fromIter l1).items.Perm
      (SetRs.HISet.fromIter l2).items :=
    (List.perm_ext_iff_of_nodup hs1.nodup hs2.nodup).mpr hext
  have heq : (SetRs.HISet.fromIter l1).items
      = (SetRs.HISet.fromIter l2).items :=
    List.eq_of_perm_of_sorted hp (hs1.imp (fun hab => le_of_lt hab))
      (hs2.imp (fun hab => le_of_lt hab))
  have hset : SetRs.HISet.fromIter l1 = SetRs.HISet.fromIter l2 :=
    congrArg SetRs.HISet.mk heq
  exact ⟨hset, fun hash => congrArg hash hset⟩

/-- Witness for C8: the concrete scenario from the spec, [1,2,3] versus
[3,2,1]. -/
theorem C8_order_independence_witness :
    ([1, 2, 3] : List Int).Perm [3, 2, 1] ∧
    SetRs.HISet.fromIter ([1, 2, 3] : List Int)
      = SetRs.HISet.fromIter [3, 2, 1] :=
  ⟨by decide, (C8_order_independence [1, 2, 3] [3, 2, 1] (by decide)).1⟩

/-- C9: the claim (and the spec's API list) says `get_index_mut` returns a
mutable reference `&mut T` through which the caller can mutate the element
in place.  In the code, both copies (`src/set.rs` lines 73–77 and
`src/lib.rs` lines 72–76) declare the return type `&T`, so the `&mut`
borrow in the body coerces to a shared reference and the caller gets
read-only access: in the embedding `get_index_mut` coincides with the
read-only `get_index` and yields no updated container.  The first conjunct
evaluates the code at the failing input (set `{1}`, index `0 < len`). -/
theorem C9_get_index_mut_readonly :
    (SetRs.HISet.mk [(1 : Int)]).get_index_mut 0 = some 1 ∧
    (∀ (s : SetRs.HISet Int) (i : Nat), s.get_index_mut i = s.get_index i) ∧
    (∀ (t : LibRs.HISet Int) (i : Nat), t.get_index_mut i = t.get_index i) :=
  ⟨rfl, fun _ _ => rfl, fun _ _ => rfl⟩

/-- C10: duplicate-module equivalence — the `HISet` of `src/lib.rs` and the
`HISet` of `src/set.rs` agree extensionally on their shared operations: for
every sequence of shared mutating calls from `new()`, both copies hold the
same element sequence, and `len`, `iter`, `contains`, `insert`, `remove`,
`remove_index`, `get_index` and `get_index_mut` all return the same
values on the two resulting states. -/
theorem C10_duplicate_module_equiv {α : Type} [LinearOrder α]
    (ops : List (CommonOp α)) :
    (SetRs.HISet.new : SetRs.HISet α).items
        = (LibRs.HISet.new : LibRs.HISet α).items ∧
    (SetRs.HISet.runCommon ops).items = (LibRs.HISet.runCommon ops).items ∧
    (SetRs.HISet.runCommon ops).iter = (LibRs.HISet.runCommon ops).iter ∧
    (SetRs.HISet.runCommon ops).len = (LibRs.HISet.runCommon ops).len ∧
    (∀ x, (SetRs.HISet.runCommon ops).contains x
        = (LibRs.HISet.runCommon ops).contains x) ∧
    (∀ x, ((SetRs.HISet.runCommon ops).insert x).1
        = ((LibRs.HISet.runCommon ops).insert x).1 ∧
      (((SetRs.HISet.runCommon ops).insert x).2).items
        = (((LibRs.HISet.runCommon ops).insert x).2).items) ∧
    (∀ x, ((SetRs.HISet.runCommon ops).remove x).1
        = ((LibRs.HISet.runCommon ops).remove x).1 ∧
      (((SetRs.HISet.runCommon ops).remove x).2).items
        = (((LibRs.HISet.runCommon ops).remove x).2).items) ∧
    (∀ i, (SetRs.HISet.runCommon ops).get_index i
        = (LibRs.HISet.runCommon ops).get_index i ∧
      (SetRs.HISet.runCommon ops).get_index_mut i
        = (LibRs.HISet.runCommon ops).get_index_mut i ∧
      ((SetRs.HISet.runCommon ops).remove_index i).map Prod.fst
        = ((LibRs.HISet.runCommon ops).remove_index i).map Prod.fst ∧
      ((SetRs.HISet.runCommon ops).remove_index i).map (fun p => (p.2).items)
        = ((LibRs.HISet.runCommon ops).remove_index i).map
            (fun p => (p.2).items)) := by
  have h := LibRs.runCommon_items_eq ops
  obtain ⟨h1, h2, h3, h4, h5, h6⟩ :=
    LibRs.obs_eq_of_items_eq (SetRs.HISet.runCommon ops)
      (LibRs.HISet.runCommon ops) h
  exact ⟨rfl, h, h1, h2, h3, h4, h5, h6⟩
